import Mathlib

/-!
Shallow embedding of the consistent-hashing ring from `src/src/lib.rs`
(crate `consistency`): virtual-node generation, the sorted vnode sequence,
and the `add` / `remove` / lookup operations of `Ring`.

Conventions of the embedding:
* Rust `String` stays `String`; Rust's `Ord` on `String` (byte-wise
  lexicographic, which on UTF-8 data coincides with lexicographic order on
  unicode scalar values) is embedded as an explicit lexicographic comparison
  on `String.data`, so that it evaluates by kernel reduction.
* The SHA-1 digest `hash_key` comes from the external `crypto` crate; the
  development is parametric in a digest `hash_key : String → String`
  (the contract used by the code: a deterministic total function).
* The generic owner type `N : Node` is embedded as a record with the `name`
  used by the ring plus an opaque payload the ring never interprets; its
  `Ord`/`PartialEq` instances follow the owner identity contract (ordering
  and equality by `name`, as in the crate's `TestNode`).
* `Vec` mutation is embedded by explicit state passing on `List`.
-/

namespace Consistency

/-- Lexicographic comparison of char lists: the order Rust's `String: Ord`
induces on the `hash` strings (`a ≤ b`). -/
def charsLe : List Char → List Char → Bool
  | [], _ => true
  | _ :: _, [] => false
  | a :: as, b :: bs => if a < b then true else if b < a then false else charsLe as bs

/-- Three-way lexicographic comparison of char lists: Rust's `String::cmp`. -/
def charsCmp : List Char → List Char → Ordering
  | [], [] => .eq
  | [], _ :: _ => .lt
  | _ :: _, [] => .gt
  | a :: as, b :: bs => if a < b then .lt else if b < a then .gt else charsCmp as bs

/-- Rust `a <= b` on strings. -/
def strLe (a b : String) : Bool := charsLe a.data b.data

/-- Rust `a.cmp(b)` on strings. -/
def strCmp (a b : String) : Ordering := charsCmp a.data b.data

/-- An owner (the trait `Node`): a stable `name`, plus fields the ring never
interprets (`payload`). -/
structure Node where
  name : String
  payload : String
deriving DecidableEq

/-- The owner contract's `Ord` impl: total ordering consistent with name
comparison (as in the crate's `TestNode::cmp`). -/
def Node.cmpN (a b : Node) : Ordering := strCmp a.name b.name

/-- The owner contract's `PartialEq::eq`: equality by `name`
(as in the crate's `TestNode::eq`). -/
def Node.eqN (a b : Node) : Bool := a.name == b.name

/-- `VNode`: one hash-ring position (`src/src/lib.rs` lines 32-37). -/
structure VNode where
  replica : Nat
  node : Node
  hash : String
deriving DecidableEq

/-- `VNode::new` (lines 39-49): `hash = hash_key(format!("{}_{}", node.name(), replica))`. -/
def VNode.new (hash_key : String → String) (replica : Nat) (node : Node) : VNode :=
  { replica := replica, node := node,
    hash := hash_key (node.name ++ "_" ++ toString replica) }

/-- The `Ord` impl of `VNode` (lines 57-61), as a `≤` test: comparison by `hash` only. -/
def vnodeLe (a b : VNode) : Bool := strLe a.hash b.hash

/-- Stable sort by `hash`: insertion of one element into a sorted list,
keeping the inserted element before later equal elements. -/
def insertVNode (v : VNode) : List VNode → List VNode
  | [] => [v]
  | w :: ws => if vnodeLe v w then v :: w :: ws else w :: insertVNode v ws

/-- Rust's stable `vnodes.sort()` (by the `Ord` of `VNode`, i.e. by `hash`),
embedded as stable insertion sort: a stable sort by a total preorder is
uniquely determined by its input, so this is extensionally the same function. -/
def sortVNodes : List VNode → List VNode
  | [] => []
  | v :: vs => insertVNode v (sortVNodes vs)

/-- `create_replicas_for_node` (lines 79-84): vnodes for replicas `0..replicas`,
sorted ascending by hash. -/
def create_replicas_for_node (hash_key : String → String) (replicas : Nat)
    (node : Node) : List VNode :=
  sortVNodes ((List.range replicas).map (fun r => VNode.new hash_key r node))

/-- `Ring` (lines 86-90). -/
structure Ring where
  replicas : Nat
  nodes : List Node
  vnodes : List VNode
deriving DecidableEq

/-- `Ring::new` (lines 93-100). -/
def Ring.new (hash_key : String → String) (replicas : Nat) (seed_node : Node) : Ring :=
  { replicas := replicas,
    nodes := [seed_node],
    vnodes := create_replicas_for_node hash_key replicas seed_node }

/-- `Ring::contains_name` (lines 102-105). -/
def Ring.contains_name (self : Ring) (name : String) : Bool :=
  self.nodes.any (fun node => node.name == name)

/-- `Ring::contains` (lines 107-109). -/
def Ring.contains (self : Ring) (search_node : Node) : Bool :=
  self.contains_name search_node.name

/-- The insert-in-place loop of `Ring::add` (lines 119-139), acting on
`self.vnodes` and the pending `new_vnodes`.  The loop walks the existing
vnodes left to right; standing at an existing vnode `v` it inserts (in order)
every pending new vnode `n` with `v >= n` (i.e. `n.hash <= v.hash`) before
`v`, then steps past `v`; new vnodes still pending when the walk passes the
end are pushed at the end. -/
def mergeInto : List VNode → List VNode → List VNode
  | [], new_vnodes => new_vnodes
  | v :: vs, new_vnodes =>
      new_vnodes.takeWhile (fun n => vnodeLe n v)
        ++ v :: mergeInto vs (new_vnodes.dropWhile (fun n => vnodeLe n v))

/-- `Ring::add` (lines 111-140). -/
def Ring.add (hash_key : String → String) (self : Ring) (node : Node) : Ring :=
  if self.contains node then
    -- The Ring already has this node
    self
  else
    { self with
      nodes := self.nodes ++ [node],
      vnodes := mergeInto self.vnodes
        (create_replicas_for_node hash_key self.replicas node) }

/-- `<[T]>::binary_search_by` of the Rust standard library of the crate's era
(split-at-half loop), on the owner list; `f` compares a probed element with
the target.  Returns `.ok i` when the probe at `i` compares `Equal`, else
`.error` of the insertion point.  The extra fuel argument makes the
recursion structural; each loop step strictly shrinks the slice, so
`s.length + 1` fuel is never exhausted. -/
def binary_search_go (f : Node → Ordering) : Nat → Nat → List Node → Except Nat Nat
  | 0, base, _ => .error base
  | fuel + 1, base, s =>
    let half := s.length / 2
    match s.drop half with
    | [] => .error base
    | t :: rest =>
      match f t with
      | .lt => binary_search_go f fuel (base + half + 1) rest
      | .gt => binary_search_go f fuel base (s.take half)
      | .eq => .ok (base + half)

/-- Entry point of `binary_search_by`. -/
def binary_search_by (l : List Node) (f : Node → Ordering) : Except Nat Nat :=
  binary_search_go f (l.length + 1) 0 l

/-- `Ring::remove` (lines 142-147): find the owner by binary search over the
owner list using the owner's `Ord`; when found, remove it from the owner list
and `retain` (keep) exactly the vnodes whose owner `eq`s the removed owner. -/
def Ring.remove (self : Ring) (node : Node) : Ring :=
  match binary_search_by self.nodes (fun box_node => Node.cmpN box_node node) with
  | .ok i =>
      { self with
        nodes := self.nodes.eraseIdx i,
        vnodes := self.vnodes.filter (fun vnode => Node.eqN vnode.node node) }
  | .error _ => self

/-- `Ring::get_with_hash` (lines 149-163). -/
def Ring.get_with_hash (self : Ring) (key_hash : String) : Option Node :=
  match self.vnodes with
  | [] => none
  | v0 :: rest =>
    match (v0 :: rest).find? (fun vnode => strLe key_hash vnode.hash) with
    | some vnode => some vnode.node
    | none => some v0.node

/-- `Ring::get` (lines 165-167). -/
def Ring.get (hash_key : String → String) (self : Ring) (key : String) : Option Node :=
  self.get_with_hash (hash_key key)

/-- The class invariant: the vnode sequence is sorted ascending by `hash`. -/
def sortedByHash (l : List VNode) : Prop :=
  List.Pairwise (fun a b => vnodeLe a b = true) l

instance : DecidablePred sortedByHash := fun l =>
  inferInstanceAs (Decidable (List.Pairwise _ l))

/-! Basic facts about the lexicographic comparison. -/

theorem charsLe_refl (a : List Char) : charsLe a a = true := by
  induction a with
  | nil => rfl
  | cons x xs ih => simp [charsLe, ih]

theorem charsLe_total (a b : List Char) : charsLe a b = true ∨ charsLe b a = true := by
  induction a generalizing b with
  | nil => left; rfl
  | cons x xs ih =>
    cases b with
    | nil => right; rfl
    | cons y ys =>
      rcases lt_trichotomy x y with h | h | h
      · left; simp [charsLe, h]
      · subst h
        rcases ih ys with h2 | h2
        · left; simp [charsLe, h2]
        · right; simp [charsLe, h2]
      · right; simp [charsLe, h]

theorem charsLe_trans (a b c : List Char) (hab : charsLe a b = true)
    (hbc : charsLe b c = true) : charsLe a c = true := by
  induction a generalizing b c with
  | nil => rfl
  | cons x xs ih =>
    cases b with
    | nil => simp [charsLe] at hab
    | cons y ys =>
      cases c with
      | nil => simp [charsLe] at hbc
      | cons z zs =>
        by_cases hxy : x < y
        · by_cases hyz : y < z
          · simp [charsLe, lt_trans hxy hyz]
          · by_cases hzy : z < y
            · simp [charsLe, hyz, hzy] at hbc
            · have hyz' : y = z := le_antisymm (not_lt.mp hzy) (not_lt.mp hyz)
              subst hyz'; simp [charsLe, hxy]
        · by_cases hyx : y < x
          · simp [charsLe, hxy, hyx] at hab
          · have hxy' : x = y := le_antisymm (not_lt.mp hyx) (not_lt.mp hxy)
            subst hxy'
            simp only [charsLe, lt_self_iff_false, if_false, if_neg] at hab
            by_cases hyz : x < z
            · simp [charsLe, hyz]
            · by_cases hzy : z < x
              · simp [charsLe, hyz, hzy] at hbc
              · have hyz' : x = z := le_antisymm (not_lt.mp hzy) (not_lt.mp hyz)
                subst hyz'
                simp only [charsLe, lt_self_iff_false, if_false, if_neg] at hbc
                simp [charsLe, ih ys zs hab hbc]

theorem charsLe_antisymm (a b : List Char) (hab : charsLe a b = true)
    (hba : charsLe b a = true) : a = b := by
  induction a generalizing b with
  | nil =>
    cases b with
    | nil => rfl
    | cons y ys => simp [charsLe] at hba
  | cons x xs ih =>
    cases b with
    | nil => simp [charsLe] at hab
    | cons y ys =>
      by_cases hxy : x < y
      · have hyx := lt_asymm hxy
        simp [charsLe, hxy, hyx] at hba
      · by_cases hyx : y < x
        · simp [charsLe, hxy, hyx] at hab
        · have hxy' : x = y := le_antisymm (not_lt.mp hyx) (not_lt.mp hxy)
          subst hxy'
          simp only [charsLe, lt_self_iff_false, if_false, if_neg] at hab hba
          rw [ih ys hab hba]

theorem strLe_antisymm (a b : String) (hab : strLe a b = true)
    (hba : strLe b a = true) : a = b :=
  String.ext (charsLe_antisymm _ _ hab hba)

theorem vnodeLe_refl (v : VNode) : vnodeLe v v = true := charsLe_refl _

theorem vnodeLe_total (a b : VNode) : vnodeLe a b = true ∨ vnodeLe b a = true :=
  charsLe_total _ _

theorem vnodeLe_of_not (a b : VNode) (h : ¬ vnodeLe a b = true) : vnodeLe b a = true :=
  (vnodeLe_total a b).resolve_left h

theorem vnodeLe_trans (a b c : VNode) (hab : vnodeLe a b = true)
    (hbc : vnodeLe b c = true) : vnodeLe a c = true :=
  charsLe_trans _ _ _ hab hbc

theorem hash_eq_of_vnodeLe (a b : VNode) (hab : vnodeLe a b = true)
    (hba : vnodeLe b a = true) : a.hash = b.hash :=
  strLe_antisymm _ _ hab hba

/-! Facts about the stable sort used by `create_replicas_for_node`. -/

theorem insertVNode_perm (v : VNode) (l : List VNode) :
    List.Perm (insertVNode v l) (v :: l) := by
  induction l with
  | nil => exact List.Perm.refl _
  | cons w ws ih =>
    simp only [insertVNode]
    split
    · exact List.Perm.refl _
    · exact (List.Perm.cons w ih).trans (List.Perm.swap v w ws)

theorem mem_insertVNode (x v : VNode) (l : List VNode) :
    x ∈ insertVNode v l ↔ x = v ∨ x ∈ l := by
  rw [(insertVNode_perm v l).mem_iff, List.mem_cons]

theorem insertVNode_sorted (v : VNode) (l : List VNode) (hl : sortedByHash l) :
    sortedByHash (insertVNode v l) := by
  induction l with
  | nil => simp [insertVNode, sortedByHash]
  | cons w ws ih =>
    obtain ⟨hw, hws⟩ := List.pairwise_cons.mp hl
    simp only [insertVNode]
    split
    case isTrue h =>
      refine List.pairwise_cons.mpr ⟨?_, hl⟩
      intro x hx
      rcases List.mem_cons.mp hx with rfl | hx'
      · exact h
      · exact vnodeLe_trans _ _ _ h (hw x hx')
    case isFalse h =>
      refine List.pairwise_cons.mpr ⟨?_, ih hws⟩
      intro x hx
      rcases (mem_insertVNode x v ws).mp hx with rfl | hx'
      · exact vnodeLe_of_not _ _ h
      · exact hw x hx'

theorem sortVNodes_perm (l : List VNode) : List.Perm (sortVNodes l) l := by
  induction l with
  | nil => exact List.Perm.refl _
  | cons v vs ih =>
    exact (insertVNode_perm v (sortVNodes vs)).trans (List.Perm.cons v ih)

theorem sortVNodes_sorted (l : List VNode) : sortedByHash (sortVNodes l) := by
  induction l with
  | nil => exact List.Pairwise.nil
  | cons v vs ih => exact insertVNode_sorted v (sortVNodes vs) ih

theorem sortVNodes_length (l : List VNode) : (sortVNodes l).length = l.length :=
  (sortVNodes_perm l).length_eq

theorem create_replicas_length (hash_key : String → String) (replicas : Nat) (node : Node) :
    (create_replicas_for_node hash_key replicas node).length = replicas := by
  simp [create_replicas_for_node, sortVNodes_length]

theorem create_replicas_sorted (hash_key : String → String) (replicas : Nat) (node : Node) :
    sortedByHash (create_replicas_for_node hash_key replicas node) :=
  sortVNodes_sorted _

theorem mem_create_replicas (hash_key : String → String) (replicas : Nat) (node : Node)
    (v : VNode) (hv : v ∈ create_replicas_for_node hash_key replicas node) :
    v.node = node := by
  have := (sortVNodes_perm _).mem_iff.mp hv
  simp only [List.mem_map, List.mem_range] at this
  obtain ⟨r, _, rfl⟩ := this
  rfl

/-! Facts about the insert-in-place loop of `Ring::add`. -/

theorem mergeInto_perm (vs ns : List VNode) :
    List.Perm (mergeInto vs ns) (vs ++ ns) := by
  induction vs generalizing ns with
  | nil => simp [mergeInto]
  | cons v vs ih =>
    simp only [mergeInto]
    set tk := ns.takeWhile (fun n => vnodeLe n v) with htk
    set dr := ns.dropWhile (fun n => vnodeLe n v) with hdr
    have h1 : List.Perm (tk ++ v :: mergeInto vs dr) (v :: (tk ++ mergeInto vs dr)) :=
      List.perm_middle
    have h2 : List.Perm (tk ++ mergeInto vs dr) (tk ++ (vs ++ dr)) :=
      List.Perm.append_left tk (ih dr)
    have h3 : List.Perm (tk ++ (vs ++ dr)) (vs ++ (tk ++ dr)) := by
      rw [← List.append_assoc, ← List.append_assoc]
      exact List.Perm.append_right dr List.perm_append_comm
    have h4 : tk ++ dr = ns := by
      rw [htk, hdr]; exact List.takeWhile_append_dropWhile _ _
    have := h1.trans (List.Perm.cons v (h2.trans h3))
    rw [h4] at this
    exact this

theorem mergeInto_length (vs ns : List VNode) :
    (mergeInto vs ns).length = vs.length + ns.length := by
  have := (mergeInto_perm vs ns).length_eq
  simpa using this

theorem mergeInto_sublist (vs ns : List VNode) : vs.Sublist (mergeInto vs ns) := by
  induction vs generalizing ns with
  | nil => exact List.nil_sublist _
  | cons v vs ih =>
    simp only [mergeInto]
    exact (List.Sublist.cons₂ v (ih _)).trans (List.sublist_append_right _ _)

theorem le_of_mem_dropWhile (v : VNode) (ns : List VNode) (hns : sortedByHash ns) :
    ∀ x ∈ ns.dropWhile (fun n => vnodeLe n v), vnodeLe v x = true := by
  induction ns with
  | nil => simp
  | cons n t ih =>
    obtain ⟨hn, ht⟩ := List.pairwise_cons.mp hns
    by_cases h : vnodeLe n v = true
    · rw [List.dropWhile_cons, if_pos h]
      exact ih ht
    · rw [List.dropWhile_cons, if_neg h]
      intro x hx
      rcases List.mem_cons.mp hx with rfl | hx'
      · exact vnodeLe_of_not _ _ h
      · exact vnodeLe_trans _ _ _ (vnodeLe_of_not _ _ h) (hn x hx')

theorem mergeInto_sorted (vs ns : List VNode) (hvs : sortedByHash vs)
    (hns : sortedByHash ns) : sortedByHash (mergeInto vs ns) := by
  induction vs generalizing ns with
  | nil => simpa [mergeInto] using hns
  | cons v vs ih =>
    obtain ⟨hv, hvs'⟩ := List.pairwise_cons.mp hvs
    have hsplit : List.Pairwise (fun a b => vnodeLe a b = true)
        (ns.takeWhile (fun n => vnodeLe n v) ++ ns.dropWhile (fun n => vnodeLe n v)) := by
      rw [List.takeWhile_append_dropWhile]; exact hns
    obtain ⟨htk, hdr, hcross⟩ := List.pairwise_append.mp hsplit
    simp only [mergeInto, sortedByHash]
    rw [List.pairwise_append]
    refine ⟨htk, ?_, ?_⟩
    · refine List.pairwise_cons.mpr ⟨?_, ih _ hvs' hdr⟩
      intro x hx
      rcases List.mem_append.mp ((mergeInto_perm vs _).mem_iff.mp hx) with hx' | hx'
      · exact hv x hx'
      · exact le_of_mem_dropWhile v ns hns x hx'
    · intro a ha b hb
      have hav : vnodeLe a v = true := by simpa using List.mem_takeWhile_imp ha
      rcases List.mem_cons.mp hb with rfl | hb'
      · exact hav
      · rcases List.mem_append.mp ((mergeInto_perm vs _).mem_iff.mp hb') with hb'' | hb''
        · exact vnodeLe_trans _ _ _ hav (hv b hb'')
        · exact hcross a ha b hb''

/-! Facts about the linear scan of `Ring::get_with_hash`. -/

theorem find_first_ge_min (h : String) (l : List VNode) (hs : sortedByHash l) (u : VNode)
    (hu : l.find? (fun v => strLe h v.hash) = some u) :
    ∀ v ∈ l, strLe h v.hash = true → strLe u.hash v.hash = true := by
  induction l with
  | nil => simp at hu
  | cons w t ih =>
    obtain ⟨hw, ht⟩ := List.pairwise_cons.mp hs
    by_cases hpw : strLe h w.hash = true
    · simp only [List.find?_cons, hpw, if_true, Option.some.injEq] at hu
      subst hu
      intro v hv _
      rcases List.mem_cons.mp hv with rfl | hv'
      · exact charsLe_refl _
      · exact hw v hv'
    · simp only [List.find?_cons, hpw, if_false, Bool.false_eq_true] at hu
      intro v hv hpv
      rcases List.mem_cons.mp hv with rfl | hv'
      · exact absurd hpv hpw
      · exact ih ht hu v hv' hpv

theorem eq_of_mem_of_hash_eq (l : List VNode)
    (hd : List.Pairwise (fun a b => a.hash ≠ b.hash) l) (u v : VNode)
    (hu : u ∈ l) (hv : v ∈ l) (h : u.hash = v.hash) : u = v := by
  induction l with
  | nil => simp at hu
  | cons w t ih =>
    obtain ⟨hw, ht⟩ := List.pairwise_cons.mp hd
    rcases List.mem_cons.mp hu with rfl | hu'
    · rcases List.mem_cons.mp hv with rfl | hv'
      · rfl
      · exact absurd h (hw v hv')
    · rcases List.mem_cons.mp hv with rfl | hv'
      · exact absurd h.symm (hw u hu')
      · exact ih ht hu' hv'

/-! Claim theorems. -/

/-- Claim C1: the spec states that `remove(owner)` deletes every vnode belonging
to that owner and leaves all other owners' vnodes present.  The code does the
opposite: `retain(|vnode| vnode.node.eq(node))` keeps exactly the removed
owner's vnodes and deletes every other owner's vnodes.  With digest `id` and
one replica per owner, the ring over owners `Foo` and `Bar` holds vnodes for
both (hashes `Bar_0`, `Foo_0`); after `remove(Bar)` the vnode sequence is
exactly `Bar`'s vnode, while `Foo`'s vnode is gone and `Bar` was removed from
the owner list. -/
theorem remove_retains_removed_owner_vnodes_bug :
    ((Ring.add id (Ring.new id 1 ⟨"Foo", ""⟩) ⟨"Bar", ""⟩).vnodes.map
        (fun v => v.node.name) = ["Bar", "Foo"])
    ∧ ((Ring.add id (Ring.new id 1 ⟨"Foo", ""⟩) ⟨"Bar", ""⟩).remove ⟨"Bar", ""⟩).nodes =
        [⟨"Foo", ""⟩]
    ∧ ((Ring.add id (Ring.new id 1 ⟨"Foo", ""⟩) ⟨"Bar", ""⟩).remove ⟨"Bar", ""⟩).vnodes =
        [⟨0, ⟨"Bar", ""⟩, "Bar_0"⟩] := by decide

/-- Claim C2: the spec states that `remove(owner)` of a stored owner always
deletes that owner (owner count −1).  The code looks the owner up with
`binary_search_by` over the owner list, which `add` keeps in insertion order,
not sorted by the owners' `Ord`; the search can therefore miss a present
owner.  With owners inserted in order `Foo`, `Bar`, `Baz` (name order has
`Bar < Baz < Foo`), the probes of the search land on `Bar` then `Baz`, both
comparing `Less` against target `Foo`, and the search fails: `remove(Foo)` is
a no-op even though `Foo` is stored. -/
theorem remove_misses_present_owner_bug :
    (Ring.add id (Ring.add id (Ring.new id 1 ⟨"Foo", ""⟩) ⟨"Bar", ""⟩)
        ⟨"Baz", ""⟩).contains ⟨"Foo", ""⟩ = true
    ∧ ((Ring.add id (Ring.add id (Ring.new id 1 ⟨"Foo", ""⟩) ⟨"Bar", ""⟩)
          ⟨"Baz", ""⟩).remove ⟨"Foo", ""⟩) =
        Ring.add id (Ring.add id (Ring.new id 1 ⟨"Foo", ""⟩) ⟨"Bar", ""⟩)
          ⟨"Baz", ""⟩ := by decide

/-- Claim C3: the vnode sequence is sorted ascending by hash at every
externally observable point: it is sorted after `Ring::new`, and both `add`
and `remove` preserve sortedness from any starting state satisfying it. -/
theorem vnodes_sorted_invariant (hash_key : String → String) (r : Nat) (s : Node)
    (ring : Ring) (n : Node) :
    sortedByHash (Ring.new hash_key r s).vnodes
    ∧ (sortedByHash ring.vnodes → sortedByHash (Ring.add hash_key ring n).vnodes)
    ∧ (sortedByHash ring.vnodes → sortedByHash (ring.remove n).vnodes) := by
  refine ⟨create_replicas_sorted _ _ _, ?_, ?_⟩
  · intro hs
    unfold Ring.add
    split
    · exact hs
    · exact mergeInto_sorted _ _ hs (create_replicas_sorted _ _ _)
  · intro hs
    unfold Ring.remove
    split
    · exact List.Pairwise.sublist (List.filter_sublist _) hs
    · exact hs

/-- Witness for C3 at digest `id`, seed `Foo` with 2 replicas, added or
removed owner `Bar`. -/
theorem vnodes_sorted_invariant_witness :
    sortedByHash (Ring.new id 2 ⟨"Foo", ""⟩).vnodes
    ∧ sortedByHash (Ring.add id (Ring.new id 2 ⟨"Foo", ""⟩) ⟨"Bar", ""⟩).vnodes
    ∧ sortedByHash ((Ring.new id 2 ⟨"Foo", ""⟩).remove ⟨"Bar", ""⟩).vnodes :=
  ⟨(vnodes_sorted_invariant id 2 ⟨"Foo", ""⟩ (Ring.new id 2 ⟨"Foo", ""⟩) ⟨"Bar", ""⟩).1,
   (vnodes_sorted_invariant id 2 ⟨"Foo", ""⟩ (Ring.new id 2 ⟨"Foo", ""⟩) ⟨"Bar", ""⟩).2.1
     (by decide),
   (vnodes_sorted_invariant id 2 ⟨"Foo", ""⟩ (Ring.new id 2 ⟨"Foo", ""⟩) ⟨"Bar", ""⟩).2.2
     (by decide)⟩

/-- Claim C4: adding an owner whose name is not yet stored increases the owner
count by exactly 1 and the vnode count by exactly `replicas` (the count fixed
at construction). -/
theorem add_new_owner_growth (hash_key : String → String) (ring : Ring) (n : Node)
    (h : ring.contains n = false) :
    (Ring.add hash_key ring n).nodes.length = ring.nodes.length + 1
    ∧ (Ring.add hash_key ring n).vnodes.length = ring.vnodes.length + ring.replicas := by
  have hc : ¬ (ring.contains n = true) := by simp [h]
  unfold Ring.add
  rw [if_neg hc]
  constructor
  · simp
  · simp [mergeInto_length, create_replicas_length]

/-- Witness for C4: adding `Bar` to the 2-replica ring seeded with `Foo`. -/
theorem add_new_owner_growth_witness :
    (Ring.new id 2 ⟨"Foo", ""⟩).contains ⟨"Bar", ""⟩ = false
    ∧ (Ring.add id (Ring.new id 2 ⟨"Foo", ""⟩) ⟨"Bar", ""⟩).nodes.length =
        (Ring.new id 2 ⟨"Foo", ""⟩).nodes.length + 1
    ∧ (Ring.add id (Ring.new id 2 ⟨"Foo", ""⟩) ⟨"Bar", ""⟩).vnodes.length =
        (Ring.new id 2 ⟨"Foo", ""⟩).vnodes.length + (Ring.new id 2 ⟨"Foo", ""⟩).replicas :=
  ⟨by decide,
   add_new_owner_growth id (Ring.new id 2 ⟨"Foo", ""⟩) ⟨"Bar", ""⟩ (by decide)⟩

/-- Claim C5: on a ring whose vnode sequence satisfies the sortedness
invariant, `get_with_hash h` returns `none` iff the sequence is empty; when
some vnode has hash `≥ h` it returns the owner of the least such vnode; when
every vnode's hash is `< h` it returns the owner of the head vnode, which has
the smallest hash. -/
theorem get_with_hash_spec (ring : Ring) (h : String) (hs : sortedByHash ring.vnodes) :
    (ring.vnodes = [] → ring.get_with_hash h = none)
    ∧ (∀ w ∈ ring.vnodes, strLe h w.hash = true →
        ∃ u ∈ ring.vnodes, ring.get_with_hash h = some u.node ∧ strLe h u.hash = true ∧
          ∀ v ∈ ring.vnodes, strLe h v.hash = true → strLe u.hash v.hash = true)
    ∧ (∀ v0 rest, ring.vnodes = v0 :: rest →
        (∀ v ∈ ring.vnodes, strLe h v.hash = false) →
        ring.get_with_hash h = some v0.node
          ∧ ∀ v ∈ ring.vnodes, strLe v0.hash v.hash = true) := by
  refine ⟨?_, ?_, ?_⟩
  · intro he; simp [Ring.get_with_hash, he]
  · intro w hw hpw
    rcases hvv : ring.vnodes with _ | ⟨v0, rest⟩
    · rw [hvv] at hw; simp at hw
    · rw [hvv] at hw hs
      rcases ho : (v0 :: rest).find? (fun v => strLe h v.hash) with _ | u
      · exact absurd hpw ((List.find?_eq_none.mp ho) w hw)
      · refine ⟨u, ?_, ?_, ?_, ?_⟩
        · exact List.mem_of_find?_eq_some ho
        · simp [Ring.get_with_hash, hvv, ho]
        · simpa using List.find?_some ho
        · intro v hvmem hpv
          exact find_first_ge_min h (v0 :: rest) hs u ho v hvmem hpv
  · intro v0 rest hvv hall
    have hnone : (v0 :: rest).find? (fun v => strLe h v.hash) = none := by
      rw [List.find?_eq_none]
      intro x hx
      simp [hall x (by rw [hvv]; exact hx)]
    refine ⟨by simp [Ring.get_with_hash, hvv, hnone], ?_⟩
    intro v hvmem
    rw [hvv] at hvmem hs
    rcases List.mem_cons.mp hvmem with rfl | hv'
    · exact charsLe_refl _
    · exact (List.pairwise_cons.mp hs).1 v hv'

/-- Witness for C5 on a concrete two-vnode ring and key hash `b`, which falls
between the two vnode hashes `a` and `c`. -/
theorem get_with_hash_spec_witness :
    ((⟨2, [⟨"A", ""⟩], [⟨0, ⟨"A", ""⟩, "a"⟩, ⟨1, ⟨"A", ""⟩, "c"⟩]⟩ : Ring).vnodes = [] →
      Ring.get_with_hash ⟨2, [⟨"A", ""⟩], [⟨0, ⟨"A", ""⟩, "a"⟩, ⟨1, ⟨"A", ""⟩, "c"⟩]⟩ "b" = none)
    ∧ (∀ w ∈ (⟨2, [⟨"A", ""⟩], [⟨0, ⟨"A", ""⟩, "a"⟩, ⟨1, ⟨"A", ""⟩, "c"⟩]⟩ : Ring).vnodes,
        strLe "b" w.hash = true →
        ∃ u ∈ (⟨2, [⟨"A", ""⟩], [⟨0, ⟨"A", ""⟩, "a"⟩, ⟨1, ⟨"A", ""⟩, "c"⟩]⟩ : Ring).vnodes,
          Ring.get_with_hash ⟨2, [⟨"A", ""⟩], [⟨0, ⟨"A", ""⟩, "a"⟩, ⟨1, ⟨"A", ""⟩, "c"⟩]⟩ "b" =
            some u.node ∧ strLe "b" u.hash = true ∧
          ∀ v ∈ (⟨2, [⟨"A", ""⟩], [⟨0, ⟨"A", ""⟩, "a"⟩, ⟨1, ⟨"A", ""⟩, "c"⟩]⟩ : Ring).vnodes,
            strLe "b" v.hash = true → strLe u.hash v.hash = true)
    ∧ (∀ v0 rest,
        (⟨2, [⟨"A", ""⟩], [⟨0, ⟨"A", ""⟩, "a"⟩, ⟨1, ⟨"A", ""⟩, "c"⟩]⟩ : Ring).vnodes =
          v0 :: rest →
        (∀ v ∈ (⟨2, [⟨"A", ""⟩], [⟨0, ⟨"A", ""⟩, "a"⟩, ⟨1, ⟨"A", ""⟩, "c"⟩]⟩ : Ring).vnodes,
          strLe "b" v.hash = false) →
        Ring.get_with_hash ⟨2, [⟨"A", ""⟩], [⟨0, ⟨"A", ""⟩, "a"⟩, ⟨1, ⟨"A", ""⟩, "c"⟩]⟩ "b" =
          some v0.node
          ∧ ∀ v ∈ (⟨2, [⟨"A", ""⟩], [⟨0, ⟨"A", ""⟩, "a"⟩, ⟨1, ⟨"A", ""⟩, "c"⟩]⟩ : Ring).vnodes,
            strLe v0.hash v.hash = true) :=
  get_with_hash_spec ⟨2, [⟨"A", ""⟩], [⟨0, ⟨"A", ""⟩, "a"⟩, ⟨1, ⟨"A", ""⟩, "c"⟩]⟩ "b" (by decide)

/-- Claim C6: `add(owner)` is a no-op when some stored owner already has the
same name, even when the two owners differ in other fields: the whole ring
record (owner list, vnode sequence, replica count) is unchanged. -/
theorem add_existing_name_noop (hash_key : String → String) (ring : Ring) (n m : Node)
    (hm : m ∈ ring.nodes) (hname : m.name = n.name) :
    Ring.add hash_key ring n = ring := by
  have hc : ring.contains n = true := by
    unfold Ring.contains Ring.contains_name
    rw [List.any_eq_true]
    exact ⟨m, hm, by simp [hname]⟩
  simp [Ring.add, hc]

/-- Witness for C6: adding `⟨Foo, y⟩` to a ring storing `⟨Foo, x⟩` (same name,
different payload) leaves the ring unchanged. -/
theorem add_existing_name_noop_witness :
    (⟨"Foo", "x"⟩ : Node) ∈ (Ring.new id 1 ⟨"Foo", "x"⟩).nodes
    ∧ Node.name ⟨"Foo", "x"⟩ = Node.name ⟨"Foo", "y"⟩
    ∧ Ring.add id (Ring.new id 1 ⟨"Foo", "x"⟩) ⟨"Foo", "y"⟩ = Ring.new id 1 ⟨"Foo", "x"⟩ :=
  ⟨by decide, rfl,
   add_existing_name_noop id (Ring.new id 1 ⟨"Foo", "x"⟩) ⟨"Foo", "y"⟩ ⟨"Foo", "x"⟩
     (by decide) rfl⟩

/-- Claim C7: on a ring whose vnode hashes are pairwise distinct (and sorted,
per the class invariant), looking up the key `owner.name + "_" + replica` of
any vnode in the sequence returns that vnode's owner. -/
theorem vnode_key_round_trip (hash_key : String → String) (ring : Ring) (v : VNode)
    (hs : sortedByHash ring.vnodes)
    (hd : List.Pairwise (fun a b => a.hash ≠ b.hash) ring.vnodes)
    (hv : v ∈ ring.vnodes)
    (hh : v.hash = hash_key (v.node.name ++ "_" ++ toString v.replica)) :
    Ring.get hash_key ring (v.node.name ++ "_" ++ toString v.replica) = some v.node := by
  unfold Ring.get
  rw [← hh]
  rcases hvv : ring.vnodes with _ | ⟨v0, rest⟩
  · rw [hvv] at hv; simp at hv
  · rw [hvv] at hv hs hd
    rcases ho : (v0 :: rest).find? (fun w => strLe v.hash w.hash) with _ | u
    · exact absurd (charsLe_refl v.hash.data) ((List.find?_eq_none.mp ho) v hv)
    · have h1 : strLe v.hash u.hash = true := by simpa using List.find?_some ho
      have h2 : strLe u.hash v.hash = true :=
        find_first_ge_min v.hash (v0 :: rest) hs u ho v hv (charsLe_refl _)
      have h3 : u = v := eq_of_mem_of_hash_eq (v0 :: rest) hd u v
        (List.mem_of_find?_eq_some ho) hv (strLe_antisymm _ _ h2 h1)
      simp [Ring.get_with_hash, hvv, ho, h3]

/-- Witness for C7 on a one-vnode ring with digest `id`: the vnode for
replica 0 of owner `A` has hash `A_0 = id("A_0")`, and `get` on key `A_0`
returns `A`. -/
theorem vnode_key_round_trip_witness :
    Ring.get id ⟨1, [⟨"A", ""⟩], [⟨0, ⟨"A", ""⟩, "A_0"⟩]⟩ "A_0" = some ⟨"A", ""⟩ := by
  exact vnode_key_round_trip id ⟨1, [⟨"A", ""⟩], [⟨0, ⟨"A", ""⟩, "A_0"⟩]⟩
    ⟨0, ⟨"A", ""⟩, "A_0"⟩ (by decide) (by decide) (by decide) (by decide)

/-- Claim C8: `Ring::new(r, S)` with `r ≥ 1` yields exactly one owner (`S`)
and exactly `r` vnodes, all belonging to `S`, sorted ascending by hash. -/
theorem new_ring_shape (hash_key : String → String) (r : Nat) (s : Node) (_h : 1 ≤ r) :
    (Ring.new hash_key r s).nodes = [s]
    ∧ (Ring.new hash_key r s).vnodes.length = r
    ∧ (∀ v ∈ (Ring.new hash_key r s).vnodes, v.node = s)
    ∧ sortedByHash (Ring.new hash_key r s).vnodes := by
  refine ⟨rfl, create_replicas_length _ _ _, ?_, create_replicas_sorted _ _ _⟩
  intro v hv
  exact mem_create_replicas _ _ _ v hv

/-- Witness for C8 at digest `id`, `r = 2`, seed `Foo`. -/
theorem new_ring_shape_witness :
    1 ≤ 2
    ∧ (Ring.new id 2 ⟨"Foo", ""⟩).nodes = [⟨"Foo", ""⟩]
    ∧ (Ring.new id 2 ⟨"Foo", ""⟩).vnodes.length = 2
    ∧ (∀ v ∈ (Ring.new id 2 ⟨"Foo", ""⟩).vnodes, v.node = ⟨"Foo", ""⟩)
    ∧ sortedByHash (Ring.new id 2 ⟨"Foo", ""⟩).vnodes :=
  ⟨by decide, new_ring_shape id 2 ⟨"Foo", ""⟩ (by decide)⟩

/-- Claim C9: construction with replica count 0 is accepted: the ring has one
owner and zero vnodes, `contains_name` of the seed's name is true, and every
lookup (`get` and `get_with_hash`, for every key) returns `none` although an
owner is present. -/
theorem new_zero_replicas (hash_key : String → String) (s : Node) (key kh : String) :
    (Ring.new hash_key 0 s).nodes.length = 1
    ∧ (Ring.new hash_key 0 s).vnodes = []
    ∧ (Ring.new hash_key 0 s).contains_name s.name = true
    ∧ Ring.get hash_key (Ring.new hash_key 0 s) key = none
    ∧ (Ring.new hash_key 0 s).get_with_hash kh = none := by
  refine ⟨rfl, rfl, ?_, ?_, ?_⟩
  · simp [Ring.new, Ring.contains_name]
  · simp [Ring.get, Ring.get_with_hash, Ring.new, create_replicas_for_node, sortVNodes]
  · simp [Ring.get_with_hash, Ring.new, create_replicas_for_node, sortVNodes]

/-- Claim C10: adding a not-yet-stored owner leaves the `replicas` field
unchanged, keeps every pre-existing vnode exactly once in its previous
relative order (the old sequence is a sublist of the new one), and the new
sequence is a permutation of the old vnodes plus exactly the new owner's
freshly created vnodes. -/
theorem add_frame_preservation (hash_key : String → String) (ring : Ring) (n : Node)
    (h : ring.contains n = false) :
    (Ring.add hash_key ring n).replicas = ring.replicas
    ∧ ring.vnodes.Sublist (Ring.add hash_key ring n).vnodes
    ∧ List.Perm (Ring.add hash_key ring n).vnodes
        (ring.vnodes ++ create_replicas_for_node hash_key ring.replicas n) := by
  have hc : ¬ (ring.contains n = true) := by simp [h]
  unfold Ring.add
  rw [if_neg hc]
  exact ⟨rfl, mergeInto_sublist _ _, mergeInto_perm _ _⟩

/-- Witness for C10: adding `Bar` to the 1-replica ring seeded with `Foo`. -/
theorem add_frame_preservation_witness :
    (Ring.new id 1 ⟨"Foo", ""⟩).contains ⟨"Bar", ""⟩ = false
    ∧ (Ring.add id (Ring.new id 1 ⟨"Foo", ""⟩) ⟨"Bar", ""⟩).replicas =
        (Ring.new id 1 ⟨"Foo", ""⟩).replicas
    ∧ (Ring.new id 1 ⟨"Foo", ""⟩).vnodes.Sublist
        (Ring.add id (Ring.new id 1 ⟨"Foo", ""⟩) ⟨"Bar", ""⟩).vnodes
    ∧ List.Perm (Ring.add id (Ring.new id 1 ⟨"Foo", ""⟩) ⟨"Bar", ""⟩).vnodes
        ((Ring.new id 1 ⟨"Foo", ""⟩).vnodes ++
          create_replicas_for_node id (Ring.new id 1 ⟨"Foo", ""⟩).replicas ⟨"Bar", ""⟩) :=
  ⟨by decide,
   add_frame_preservation id (Ring.new id 1 ⟨"Foo", ""⟩) ⟨"Bar", ""⟩ (by decide)⟩

end Consistency
